import Mathlib

/-!
Verification of the NEST synapse model `stdp_pl_synapse_hom_ax_delay`
(source: `src/models/stdp_pl_synapse_hom_ax_delay.h`).

Modelling choices:
* The C++ code computes on IEEE doubles; we model them as real numbers,
  with `std::exp` as `Real.exp` and `std::pow` on two doubles as `Real.rpow`
  (written `w ^ mu`).
* The kernel-owned collaborators are passed explicitly: the target node is a
  record holding its postsynaptic spike history (`get_history`) and its
  postsynaptic trace function (`get_K_value`); the connection base supplies
  the total delay `delay` (`get_delay()`); the sender spike data supplies the
  routing triple (tid, syn_id, lcid); the kernel supplies `stdp_eps`.
* `assert` statements are modelled twice: as plain propositions
  (`sendOk`, `adjustOk`) and as aborting `Option`-valued variants
  (`facLoopA`, `sendA`, `adjustA`) that return `none` exactly when the
  computation would trip an assertion, mirroring that a failed `assert`
  aborts the run before the weight is modified.
* Diagnostic `std::cout` statements and the side-effect-free history read
  around `missing_spike` in `adjust_weight` (done only to keep an access
  counter correct) do not affect the state and are omitted.
-/

noncomputable section

namespace STDPPL

/-- `STDPPLHomAxDelayCommonProperties`: parameters shared by all synapses of
the model (`tau_plus_`, its cached reciprocal `tau_plus_inv_`, `lambda_`,
`alpha_`, `mu_`, `axonal_delay_`). -/
structure CommonProps where
  tau_plus_ : ℝ
  tau_plus_inv_ : ℝ
  lambda_ : ℝ
  alpha_ : ℝ
  mu_ : ℝ
  axonal_delay_ : ℝ

/-- Per-connection state of `stdp_pl_synapse_hom_ax_delay`:
`weight_`, `Kplus_` (presynaptic eligibility trace) and `t_lastspike_`. -/
structure SynState where
  weight_ : ℝ
  Kplus_ : ℝ
  t_lastspike_ : ℝ

/-- The default constructor: `weight_(1.0), Kplus_(0.0), t_lastspike_(0.0)`. -/
def initState : SynState := ⟨1, 0, 0⟩

/-- `adjustentry`: the correction ticket registered with the target when the
depression step used provisional information.  Fields as in the constructor
call in `send`: `t_lastspike_`, `old_weight_`, `t_received_` plus the routing
triple from the sender spike data. -/
structure AdjustEntry where
  t_lastspike_ : ℝ
  old_weight_ : ℝ
  t_received_ : ℝ
  tid_ : ℕ
  syn_id_ : ℕ
  lcid_ : ℕ

/-- The target node as seen by the synapse: its ordered postsynaptic spike
history and its postsynaptic trace function `get_K_value`. -/
structure Target where
  history : List ℝ
  Kval : ℝ → ℝ

/-- The sub-range `(t1, t2]` of a spike-history list, in stored order: the
semantics of `Node::get_history( t1, t2, &start, &finish )`. -/
def histBetween (t1 t2 : ℝ) : List ℝ → List ℝ
  | [] => []
  | t :: ts => if t1 < t ∧ t ≤ t2 then t :: histBetween t1 t2 ts else histBetween t1 t2 ts

/-- `target->get_history( t1, t2, &start, &finish )`. -/
def get_history (tgt : Target) (t1 t2 : ℝ) : List ℝ := histBetween t1 t2 tgt.history

/-- `facilitate_( w, kplus, cp ) = w + ( cp.lambda_ * std::pow( w, cp.mu_ ) * kplus )`. -/
def facilitate_ (cp : CommonProps) (w kplus : ℝ) : ℝ :=
  w + cp.lambda_ * w ^ cp.mu_ * kplus

/-- `depress_( w, kminus, cp )`: `new_w = w - cp.lambda_ * cp.alpha_ * w * kminus`,
returned if positive, else `0`. -/
def depress_ (cp : CommonProps) (w kminus : ℝ) : ℝ :=
  let new_w := w - cp.lambda_ * cp.alpha_ * w * kminus
  if new_w > 0 then new_w else 0

/-- The facilitation loop of `send`: for each history entry `t` (in stored
order) facilitate with `Kplus_ * exp( minus_dt * tau_plus_inv_ )`, where
`minus_dt = t_lastspike_ + axonal_delay_ - ( t + dendritic_delay )`. -/
def facLoop (cp : CommonProps) (t_last dd Kp : ℝ) : List ℝ → ℝ → ℝ
  | [], w => w
  | t :: ts, w =>
      facLoop cp t_last dd Kp ts
        (facilitate_ cp w
          (Kp * Real.exp ((t_last + cp.axonal_delay_ - (t + dd)) * cp.tau_plus_inv_)))

/-- Result of one `send` call: the new synapse state, the weight carried by
the emitted spike event, and the adjustment entry registered with the target
(if any). -/
structure SendResult where
  state : SynState
  emittedWeight : ℝ
  entry? : Option AdjustEntry

/-- The part of `send` after the facilitation loop, given the
post-facilitation weight `w_fac`: depression with the trace sampled at
`t_spike + axonal_delay_ - dendritic_delay`, event emission, conditional
registration of an `adjustentry`, trace and `t_lastspike_` update. -/
def sendCore (cp : CommonProps) (tgt : Target) (delay : ℝ) (rt : ℕ × ℕ × ℕ)
    (s : SynState) (t_spike : ℝ) (w_fac : ℝ) : SendResult :=
  let dd := delay - cp.axonal_delay_
  let w_dep := depress_ cp w_fac (tgt.Kval (t_spike + cp.axonal_delay_ - dd))
  { state :=
      { weight_ := w_dep
        Kplus_ := s.Kplus_ * Real.exp ((s.t_lastspike_ - t_spike) * cp.tau_plus_inv_) + 1
        t_lastspike_ := t_spike }
    emittedWeight := w_dep
    entry? :=
      if cp.axonal_delay_ > dd then
        some ⟨s.t_lastspike_, w_fac, t_spike + cp.axonal_delay_ - dd, rt.1, rt.2.1, rt.2.2⟩
      else none }

/-- `send( e, t, cp )`: forward update for a presynaptic spike at `t_spike`. -/
def send (cp : CommonProps) (tgt : Target) (delay : ℝ) (rt : ℕ × ℕ × ℕ)
    (s : SynState) (t_spike : ℝ) : SendResult :=
  let dd := delay - cp.axonal_delay_
  sendCore cp tgt delay rt s t_spike
    (facLoop cp s.t_lastspike_ dd s.Kplus_
      (get_history tgt (s.t_lastspike_ - dd + cp.axonal_delay_)
        (t_spike - dd + cp.axonal_delay_))
      s.weight_)

/-- The assertion condition of the facilitation loop in `send`:
`minus_dt < -stdp_eps` for every history entry processed. -/
def sendOk (cp : CommonProps) (tgt : Target) (delay eps : ℝ) (s : SynState)
    (t_spike : ℝ) : Prop :=
  ∀ t ∈ get_history tgt (s.t_lastspike_ - (delay - cp.axonal_delay_) + cp.axonal_delay_)
      (t_spike - (delay - cp.axonal_delay_) + cp.axonal_delay_),
    s.t_lastspike_ + cp.axonal_delay_ - (t + (delay - cp.axonal_delay_)) < -eps

/-- Aborting facilitation loop: each step checks the `assert` on `minus_dt`
before the weight is modified and aborts (`none`) on violation. -/
def facLoopA (cp : CommonProps) (eps t_last dd Kp : ℝ) : List ℝ → ℝ → Option ℝ
  | [], w => some w
  | t :: ts, w =>
      if t_last + cp.axonal_delay_ - (t + dd) < -eps then
        facLoopA cp eps t_last dd Kp ts
          (facilitate_ cp w
            (Kp * Real.exp ((t_last + cp.axonal_delay_ - (t + dd)) * cp.tau_plus_inv_)))
      else none

/-- `send` with its assertions: aborts with `none` when the `assert` in the
facilitation loop fires. -/
def sendA (cp : CommonProps) (tgt : Target) (delay eps : ℝ) (rt : ℕ × ℕ × ℕ)
    (s : SynState) (t_spike : ℝ) : Option SendResult :=
  let dd := delay - cp.axonal_delay_
  (facLoopA cp eps s.t_lastspike_ dd s.Kplus_
      (get_history tgt (s.t_lastspike_ - dd + cp.axonal_delay_)
        (t_spike - dd + cp.axonal_delay_))
      s.weight_).map
    (sendCore cp tgt delay rt s t_spike)

/-- The correction event emitted by `adjust_weight`: its weight payload and
its explicit timestamp (`Time::ms_stamp` is modelled as the identity on the
millisecond value; grid rounding lives in the kernel). -/
structure CorrEvent where
  weight : ℝ
  stamp : ℝ

/-- `adjust_weight( a, missing_spike, cp )`: roll the weight back to
`a->old_weight_`, facilitate once with the corrected trace `Kplus_corr` and
the now-known spike, persist the post-facilitation weight into the entry,
depress again, and emit a delta-only correction event stamped with the
corrected causal time. -/
def adjust_weight (cp : CommonProps) (tgt : Target) (delay : ℝ) (s : SynState)
    (a : AdjustEntry) (missing_spike : ℝ) : SynState × AdjustEntry × CorrEvent :=
  let ori_weight := s.weight_
  let dd := delay - cp.axonal_delay_
  let t_spike := a.t_received_ - cp.axonal_delay_ + dd
  let minus_dt := a.t_lastspike_ + cp.axonal_delay_ - (missing_spike + dd)
  let Kplus_corr := (s.Kplus_ - 1) / Real.exp ((a.t_lastspike_ - t_spike) / cp.tau_plus_)
  let w1 := facilitate_ cp a.old_weight_ (Kplus_corr * Real.exp (minus_dt / cp.tau_plus_))
  let w2 := depress_ cp w1 (tgt.Kval (t_spike + cp.axonal_delay_ - dd))
  ({ s with weight_ := w2 }, { a with old_weight_ := w1 }, ⟨w2 - ori_weight, t_spike⟩)

/-- The assertion condition of `adjust_weight`: `minus_dt < -stdp_eps`. -/
def adjustOk (cp : CommonProps) (delay eps : ℝ) (a : AdjustEntry)
    (missing_spike : ℝ) : Prop :=
  a.t_lastspike_ + cp.axonal_delay_ - (missing_spike + (delay - cp.axonal_delay_)) < -eps

/-- `adjust_weight` with its assertion: aborts with `none` when the `assert`
on `minus_dt` fires, before the weight is modified. -/
def adjustA (cp : CommonProps) (tgt : Target) (delay eps : ℝ) (s : SynState)
    (a : AdjustEntry) (missing_spike : ℝ) : Option (SynState × AdjustEntry × CorrEvent) :=
  if a.t_lastspike_ + cp.axonal_delay_ - (missing_spike + (delay - cp.axonal_delay_)) < -eps then
    some (adjust_weight cp tgt delay s a missing_spike)
  else none

/-- A train of presynaptic spikes processed by successive `send` calls,
collecting every adjustment entry registered along the way. -/
def runTrain (cp : CommonProps) (tgt : Target) (delay : ℝ) (rt : ℕ × ℕ × ℕ) :
    SynState → List ℝ → SynState × List AdjustEntry
  | s, [] => (s, [])
  | s, t :: ts =>
      let r := send cp tgt delay rt s t
      let rest := runTrain cp tgt delay rt r.state ts
      (rest.1, r.entry?.toList ++ rest.2)

/-- The facilitation loop exactly as the specification words it: per spike,
`weight + lambda * weight ^ mu * trace_pre * exp( minus_dt / tau_plus )`. -/
def facLoopSpec (cp : CommonProps) (t_last dd Kp : ℝ) : List ℝ → ℝ → ℝ
  | [], w => w
  | t :: ts, w =>
      facLoopSpec cp t_last dd Kp ts
        (w + cp.lambda_ * w ^ cp.mu_ * Kp *
          Real.exp ((t_last + cp.axonal_delay_ - (t + dd)) / cp.tau_plus_))

/-- Depression as the specification words it: `max( 0, w - lambda * alpha * w * kminus )`. -/
def depressSpec (cp : CommonProps) (w kminus : ℝ) : ℝ :=
  max 0 (w - cp.lambda_ * cp.alpha_ * w * kminus)

/-- The forward update exactly as the specification words it (spec sections
4.1 steps 1-5, 8, 9), used as the comparison point for the code's `send`. -/
def forwardSpec (cp : CommonProps) (tgt : Target) (delay : ℝ) (s : SynState)
    (t_spike : ℝ) : SynState :=
  let dd := delay - cp.axonal_delay_
  let w_fac := facLoopSpec cp s.t_lastspike_ dd s.Kplus_
    (get_history tgt (s.t_lastspike_ - dd + cp.axonal_delay_) (t_spike - dd + cp.axonal_delay_))
    s.weight_
  { weight_ := depressSpec cp w_fac (tgt.Kval (t_spike + cp.axonal_delay_ - dd))
    Kplus_ := s.Kplus_ * Real.exp ((s.t_lastspike_ - t_spike) / cp.tau_plus_) + 1
    t_lastspike_ := t_spike }

/-- Modelled from the spec: the body of
`STDPPLHomAxDelayCommonProperties::set_status` is only declared in the header
and its implementation is not part of src/.  Per the spec (sections 6 and 7),
setting `axonal_delay` greater than the connection's total delay (so the
dendritic delay would be negative) is a configuration error rejected at
configuration time, not silently clamped. -/
def set_axonal_delay (cp : CommonProps) (new_delay total_delay : ℝ) :
    Except String CommonProps :=
  if total_delay < new_delay then
    Except.error "axonal delay exceeds total connection delay"
  else
    Except.ok { cp with axonal_delay_ := new_delay }

/-- Keys of the per-connection status dictionary that concern this synapse's
own fields. -/
inductive StatusKey
  | weight
  | Kplus
  | size_of
  | t_lastspike

/-- Per-connection `get_status`: defines `weight`, `Kplus` and the `size_of`
diagnostic; `t_lastspike_` is not exposed. -/
def get_status (s : SynState) (sz : ℝ) : StatusKey → Option ℝ
  | StatusKey.weight => some s.weight_
  | StatusKey.Kplus => some s.Kplus_
  | StatusKey.size_of => some sz
  | StatusKey.t_lastspike => none

/-- Per-connection `set_status`: `updateValue` semantics — overwrite
`weight_` and `Kplus_` with the dictionary entries when present, without any
validation or clamping. -/
def set_status (s : SynState) (d : StatusKey → Option ℝ) : SynState :=
  { s with
    weight_ := (d StatusKey.weight).getD s.weight_
    Kplus_ := (d StatusKey.Kplus).getD s.Kplus_ }

theorem depress_eq_max (cp : CommonProps) (w k : ℝ) :
    depress_ cp w k = max 0 (w - cp.lambda_ * cp.alpha_ * w * k) := by
  unfold depress_
  rcases lt_or_le 0 (w - cp.lambda_ * cp.alpha_ * w * k) with h | h
  · rw [if_pos h, max_eq_right h.le]
  · rw [if_neg (not_lt.mpr h), max_eq_left h]

theorem mem_histBetween {t1 t2 x : ℝ} :
    ∀ {l : List ℝ}, x ∈ histBetween t1 t2 l ↔ x ∈ l ∧ t1 < x ∧ x ≤ t2 := by
  intro l
  induction l with
  | nil => simp [histBetween]
  | cons t ts ih =>
      by_cases h : t1 < t ∧ t ≤ t2
      · rw [histBetween, if_pos h]
        constructor
        · intro hmem
          rcases List.mem_cons.mp hmem with rfl | hx
          · exact ⟨List.mem_cons_self _ _, h.1, h.2⟩
          · exact ⟨List.mem_cons_of_mem _ (ih.mp hx).1, (ih.mp hx).2⟩
        · rintro ⟨hx, hb⟩
          rcases List.mem_cons.mp hx with rfl | hx
          · exact List.mem_cons_self _ _
          · exact List.mem_cons_of_mem _ (ih.mpr ⟨hx, hb⟩)
      · rw [histBetween, if_neg h]
        constructor
        · intro hx
          exact ⟨List.mem_cons_of_mem _ (ih.mp hx).1, (ih.mp hx).2⟩
        · rintro ⟨hx, hb⟩
          rcases List.mem_cons.mp hx with rfl | hx
          · exact absurd ⟨hb.1, hb.2⟩ h
          · exact ih.mpr ⟨hx, hb⟩

theorem send_weight_eq (cp : CommonProps) (tgt : Target) (delay : ℝ) (rt : ℕ × ℕ × ℕ)
    (s : SynState) (t_spike : ℝ) :
    (send cp tgt delay rt s t_spike).state.weight_ =
      depress_ cp
        (facLoop cp s.t_lastspike_ (delay - cp.axonal_delay_) s.Kplus_
          (get_history tgt (s.t_lastspike_ - (delay - cp.axonal_delay_) + cp.axonal_delay_)
            (t_spike - (delay - cp.axonal_delay_) + cp.axonal_delay_)) s.weight_)
        (tgt.Kval (t_spike + cp.axonal_delay_ - (delay - cp.axonal_delay_))) := rfl

theorem send_Kplus_eq (cp : CommonProps) (tgt : Target) (delay : ℝ) (rt : ℕ × ℕ × ℕ)
    (s : SynState) (t_spike : ℝ) :
    (send cp tgt delay rt s t_spike).state.Kplus_ =
      s.Kplus_ * Real.exp ((s.t_lastspike_ - t_spike) * cp.tau_plus_inv_) + 1 := rfl

theorem send_tlast_eq (cp : CommonProps) (tgt : Target) (delay : ℝ) (rt : ℕ × ℕ × ℕ)
    (s : SynState) (t_spike : ℝ) :
    (send cp tgt delay rt s t_spike).state.t_lastspike_ = t_spike := rfl

theorem adjust_weight_val (cp : CommonProps) (tgt : Target) (delay : ℝ) (s : SynState)
    (a : AdjustEntry) (m : ℝ) :
    (adjust_weight cp tgt delay s a m).1.weight_ =
      depress_ cp
        (facilitate_ cp a.old_weight_
          (((s.Kplus_ - 1) /
              Real.exp ((a.t_lastspike_ -
                (a.t_received_ - cp.axonal_delay_ + (delay - cp.axonal_delay_))) / cp.tau_plus_)) *
            Real.exp ((a.t_lastspike_ + cp.axonal_delay_ -
              (m + (delay - cp.axonal_delay_))) / cp.tau_plus_)))
        (tgt.Kval ((a.t_received_ - cp.axonal_delay_ + (delay - cp.axonal_delay_)) +
          cp.axonal_delay_ - (delay - cp.axonal_delay_))) := rfl

theorem depress_eq_spec (cp : CommonProps) (w k : ℝ) :
    depress_ cp w k = depressSpec cp w k := by
  rw [depress_eq_max]; rfl

theorem facLoop_eq_spec (cp : CommonProps) (hinv : cp.tau_plus_inv_ = cp.tau_plus_⁻¹)
    (t_last dd Kp : ℝ) :
    ∀ (l : List ℝ) (w : ℝ), facLoop cp t_last dd Kp l w = facLoopSpec cp t_last dd Kp l w := by
  intro l
  induction l with
  | nil => intro w; rfl
  | cons t ts ih =>
      intro w
      simp only [facLoop, facLoopSpec]
      rw [ih]
      congr 1
      unfold facilitate_
      rw [hinv, ← div_eq_mul_inv]
      ring

/-- C2: a forward update queries the postsynaptic history over the half-open
window `(t_last_spike - dendritic_delay + axonal_delay,
t_spike - dendritic_delay + axonal_delay]`, facilitates once per returned
spike in order with `weight + lambda * weight ^ mu * trace_pre *
exp( minus_dt / tau_plus )`, then depresses with the trace sampled at
`t_spike + axonal_delay - dendritic_delay` as
`max( 0, weight - lambda * alpha * weight * K_minus )`, then sets
`trace_pre * exp( ( t_last_spike - t_spike ) / tau_plus ) + 1` and
`t_last_spike = t_spike`. -/
theorem forward_update_functional_spec (cp : CommonProps) (tgt : Target) (delay : ℝ)
    (rt : ℕ × ℕ × ℕ) (s : SynState) (t_spike : ℝ)
    (hinv : cp.tau_plus_inv_ = cp.tau_plus_⁻¹) :
    (send cp tgt delay rt s t_spike).state = forwardSpec cp tgt delay s t_spike ∧
    ∀ x, (x ∈ get_history tgt
          (s.t_lastspike_ - (delay - cp.axonal_delay_) + cp.axonal_delay_)
          (t_spike - (delay - cp.axonal_delay_) + cp.axonal_delay_) ↔
        x ∈ tgt.history ∧
          s.t_lastspike_ - (delay - cp.axonal_delay_) + cp.axonal_delay_ < x ∧
          x ≤ t_spike - (delay - cp.axonal_delay_) + cp.axonal_delay_) := by
  constructor
  · unfold forwardSpec
    simp only [send, sendCore]
    rw [SynState.mk.injEq]
    refine ⟨?_, ?_, rfl⟩
    · rw [facLoop_eq_spec cp hinv, depress_eq_spec]
    · rw [hinv, ← div_eq_mul_inv]
  · intro x
    exact mem_histBetween

/-- C4: starting from a nonnegative weight, nonnegative parameters and a
nonnegative presynaptic trace, the weight is nonnegative after any forward
update and after any correction; depression clamps at zero and facilitation
only adds a nonnegative term. -/
theorem weight_nonneg_invariant (cp : CommonProps) (tgt : Target) (delay : ℝ)
    (rt : ℕ × ℕ × ℕ) (s : SynState) (t_spike : ℝ) (a : AdjustEntry) (m : ℝ)
    (hw : 0 ≤ s.weight_) (hl : 0 ≤ cp.lambda_) (hal : 0 ≤ cp.alpha_)
    (hmu : 0 ≤ cp.mu_) (hKp : 0 ≤ s.Kplus_) :
    0 ≤ (send cp tgt delay rt s t_spike).state.weight_ ∧
    0 ≤ (adjust_weight cp tgt delay s a m).1.weight_ ∧
    ∀ w k, 0 ≤ w → 0 ≤ k → w ≤ facilitate_ cp w k := by
  refine ⟨?_, ?_, ?_⟩
  · rw [send_weight_eq, depress_eq_max]
    exact le_max_left 0 _
  · rw [adjust_weight_val, depress_eq_max]
    exact le_max_left 0 _
  · intro w k hw0 hk0
    unfold facilitate_
    have hterm : 0 ≤ cp.lambda_ * w ^ cp.mu_ * k :=
      mul_nonneg (mul_nonneg hl (Real.rpow_nonneg hw0 _)) hk0
    linarith

theorem runTrain_no_entries (cp : CommonProps) (tgt : Target) (delay : ℝ)
    (rt : ℕ × ℕ × ℕ) (hax : cp.axonal_delay_ = 0) (hdel : 0 < delay) :
    ∀ (ts : List ℝ) (s : SynState), (runTrain cp tgt delay rt s ts).2 = [] := by
  intro ts
  induction ts with
  | nil => intro s; rfl
  | cons t ts ih =>
      intro s
      have hent : (send cp tgt delay rt s t).entry? = none := by
        simp only [send, sendCore]
        rw [if_neg]
        rw [hax]
        intro hcon
        rw [sub_zero] at hcon
        exact absurd hcon (not_lt.mpr hdel.le)
      simp [runTrain, hent, ih]

/-- C6: a forward update registers an adjustment entry (with fields
`t_lastspike_`, the pre-depression weight and
`t_spike + axonal_delay - dendritic_delay`) exactly when
`axonal_delay > dendritic_delay`; with `axonal_delay = 0` and positive total
delay, an arbitrary spike train registers no entries at all. -/
theorem adjustment_entry_iff (cp : CommonProps) (tgt : Target) (delay : ℝ)
    (rt : ℕ × ℕ × ℕ) (s : SynState) (t_spike : ℝ) :
    ((send cp tgt delay rt s t_spike).entry?.isSome ↔
      delay - cp.axonal_delay_ < cp.axonal_delay_) ∧
    (∀ e, (send cp tgt delay rt s t_spike).entry? = some e →
      e.t_lastspike_ = s.t_lastspike_ ∧
      e.t_received_ = t_spike + cp.axonal_delay_ - (delay - cp.axonal_delay_) ∧
      (send cp tgt delay rt s t_spike).state.weight_ =
        depress_ cp e.old_weight_
          (tgt.Kval (t_spike + cp.axonal_delay_ - (delay - cp.axonal_delay_)))) ∧
    (cp.axonal_delay_ = 0 → 0 < delay →
      ∀ (ts : List ℝ) (s₀ : SynState), (runTrain cp tgt delay rt s₀ ts).2 = []) := by
  refine ⟨?_, ?_, ?_⟩
  · by_cases h : delay - cp.axonal_delay_ < cp.axonal_delay_ <;>
      simp [send, sendCore, h]
  · intro e he
    simp only [send, sendCore] at he
    by_cases h : delay - cp.axonal_delay_ < cp.axonal_delay_
    · rw [if_pos h] at he
      cases he
      exact ⟨rfl, rfl, rfl⟩
    · rw [if_neg h] at he
      cases he
  · intro hax hdel
    exact runTrain_no_entries cp tgt delay rt hax hdel

/-- C8: `adjust_weight` mutates only the weight and the consumed entry's
`old_weight_` field; `Kplus_` and `t_lastspike_` of the synapse, and every
other field of the entry, are untouched. -/
theorem adjust_weight_frame (cp : CommonProps) (tgt : Target) (delay : ℝ)
    (s : SynState) (a : AdjustEntry) (m : ℝ) :
    (adjust_weight cp tgt delay s a m).1.Kplus_ = s.Kplus_ ∧
    (adjust_weight cp tgt delay s a m).1.t_lastspike_ = s.t_lastspike_ ∧
    (adjust_weight cp tgt delay s a m).2.1.t_lastspike_ = a.t_lastspike_ ∧
    (adjust_weight cp tgt delay s a m).2.1.t_received_ = a.t_received_ ∧
    (adjust_weight cp tgt delay s a m).2.1.tid_ = a.tid_ ∧
    (adjust_weight cp tgt delay s a m).2.1.syn_id_ = a.syn_id_ ∧
    (adjust_weight cp tgt delay s a m).2.1.lcid_ = a.lcid_ :=
  ⟨rfl, rfl, rfl, rfl, rfl, rfl, rfl⟩

/-- C10: the per-connection `set_status` stores any real values for `weight`
and `Kplus` verbatim, with no validation, clamping or error, and leaves
`t_lastspike_` alone; the per-connection `get_status` exposes exactly
`weight`, `Kplus` and the `size_of` diagnostic among this synapse's own
fields, and `t_lastspike_` is not exposed. -/
theorem status_surface (s : SynState) (w k sz : ℝ) :
    set_status s
        (fun key => match key with
          | StatusKey.weight => some w
          | StatusKey.Kplus => some k
          | StatusKey.size_of => none
          | StatusKey.t_lastspike => none) =
      ⟨w, k, s.t_lastspike_⟩ ∧
    get_status s sz StatusKey.weight = some s.weight_ ∧
    get_status s sz StatusKey.Kplus = some s.Kplus_ ∧
    get_status s sz StatusKey.size_of = some sz ∧
    get_status s sz StatusKey.t_lastspike = none ∧
    ∀ (t : ℝ) (key : StatusKey),
      get_status { s with t_lastspike_ := t } sz key = get_status s sz key := by
  refine ⟨rfl, rfl, rfl, rfl, rfl, ?_⟩
  intro t key
  cases key <;> rfl

theorem facLoop_append (cp : CommonProps) (t_last dd Kp : ℝ) (l : List ℝ) (t w : ℝ) :
    facLoop cp t_last dd Kp (l ++ [t]) w =
      facilitate_ cp (facLoop cp t_last dd Kp l w)
        (Kp * Real.exp ((t_last + cp.axonal_delay_ - (t + dd)) * cp.tau_plus_inv_)) := by
  induction l generalizing w with
  | nil => rfl
  | cons x xs ih =>
      simp only [List.cons_append, facLoop]
      exact ih _

theorem facLoopA_complete (cp : CommonProps) (eps t_last dd Kp : ℝ) :
    ∀ (l : List ℝ) (w : ℝ),
      (∀ t ∈ l, t_last + cp.axonal_delay_ - (t + dd) < -eps) →
      facLoopA cp eps t_last dd Kp l w = some (facLoop cp t_last dd Kp l w) := by
  intro l
  induction l with
  | nil => intro w _; rfl
  | cons t ts ih =>
      intro w h
      simp only [facLoopA, facLoop]
      rw [if_pos (h t (List.mem_cons_self t ts))]
      exact ih _ fun x hx => h x (List.mem_cons_of_mem t hx)

/-- C5: in both facilitation steps the assertion `minus_dt < -stdp_eps` is
checked before the weight is modified and a violation aborts the computation;
when every history entry and the confirmed spike lie strictly inside the
causal window (more than `eps` above its lower bound), the abort branch is
unreachable and the checked computations return the unchecked results. -/
theorem asserts_unreachable (cp : CommonProps) (tgt : Target) (delay eps : ℝ)
    (rt : ℕ × ℕ × ℕ) (s : SynState) (t_spike : ℝ) (a : AdjustEntry) (m : ℝ)
    (hhist : ∀ x ∈ get_history tgt
        (s.t_lastspike_ - (delay - cp.axonal_delay_) + cp.axonal_delay_)
        (t_spike - (delay - cp.axonal_delay_) + cp.axonal_delay_),
      s.t_lastspike_ - (delay - cp.axonal_delay_) + cp.axonal_delay_ + eps < x)
    (hm : a.t_lastspike_ + cp.axonal_delay_ - (delay - cp.axonal_delay_) + eps < m) :
    sendA cp tgt delay eps rt s t_spike = some (send cp tgt delay rt s t_spike) ∧
    adjustA cp tgt delay eps s a m = some (adjust_weight cp tgt delay s a m) := by
  constructor
  · simp only [sendA, send]
    rw [facLoopA_complete]
    · rfl
    · intro t ht
      have := hhist t ht
      linarith
  · unfold adjustA
    rw [if_pos (by linarith)]

/-- C3: `adjust_weight` first rolls the weight back to the entry's
`old_weight_` (the result does not depend on the incoming weight), performs
one facilitation with the corrected trace
`( trace_pre - 1 ) / exp( ( entry.t_last_spike - t_spike ) / tau_plus )`
at the missing spike, persists the post-facilitation weight into the entry
before the depression step, and emits a correction event whose payload is the
delta `weight - ori_weight` stamped with the corrected causal time
`t_spike = entry.t_received - axonal_delay + dendritic_delay`. -/
theorem adjust_weight_functional_spec (cp : CommonProps) (tgt : Target) (delay : ℝ)
    (s : SynState) (a : AdjustEntry) (m : ℝ) :
    (∀ w', (adjust_weight cp tgt delay { s with weight_ := w' } a m).1.weight_ =
        (adjust_weight cp tgt delay s a m).1.weight_) ∧
    (adjust_weight cp tgt delay s a m).2.1.old_weight_ =
      a.old_weight_ + cp.lambda_ * a.old_weight_ ^ cp.mu_ *
        ((s.Kplus_ - 1) /
          Real.exp ((a.t_lastspike_ -
            (a.t_received_ - cp.axonal_delay_ + (delay - cp.axonal_delay_))) / cp.tau_plus_)) *
        Real.exp ((a.t_lastspike_ + cp.axonal_delay_ -
          (m + (delay - cp.axonal_delay_))) / cp.tau_plus_) ∧
    (adjust_weight cp tgt delay s a m).1.weight_ =
      max 0 ((adjust_weight cp tgt delay s a m).2.1.old_weight_ -
        cp.lambda_ * cp.alpha_ * (adjust_weight cp tgt delay s a m).2.1.old_weight_ *
          tgt.Kval ((a.t_received_ - cp.axonal_delay_ + (delay - cp.axonal_delay_)) +
            cp.axonal_delay_ - (delay - cp.axonal_delay_))) ∧
    (adjust_weight cp tgt delay s a m).2.2.weight =
      (adjust_weight cp tgt delay s a m).1.weight_ - s.weight_ ∧
    (adjust_weight cp tgt delay s a m).2.2.stamp =
      a.t_received_ - cp.axonal_delay_ + (delay - cp.axonal_delay_) := by
  refine ⟨fun w' => rfl, ?_, ?_, rfl, rfl⟩
  · simp only [adjust_weight, facilitate_]
    ring
  · simp only [adjust_weight]
    rw [depress_eq_max]

/-- C7: setting `axonal_delay` to a value exceeding the connection's total
delay is rejected as a configuration error (the dendritic delay would be
negative); an accepted configuration stores the value unclamped and keeps
the dendritic delay nonnegative. -/
theorem axonal_delay_config_rejected (cp : CommonProps) (new_delay total_delay : ℝ) :
    (total_delay < new_delay →
      set_axonal_delay cp new_delay total_delay =
        Except.error "axonal delay exceeds total connection delay") ∧
    ∀ cp', set_axonal_delay cp new_delay total_delay = Except.ok cp' →
      cp'.axonal_delay_ = new_delay ∧ 0 ≤ total_delay - cp'.axonal_delay_ := by
  constructor
  · intro h
    unfold set_axonal_delay
    rw [if_pos h]
  · intro cp' h
    unfold set_axonal_delay at h
    by_cases hc : total_delay < new_delay
    · rw [if_pos hc] at h
      cases h
    · rw [if_neg hc] at h
      cases h
      exact ⟨rfl, sub_nonneg.mpr (not_lt.mp hc)⟩

/-- C1: when a forward update enqueued an adjustment entry, applying
`adjust_weight` once with the missing postsynaptic spike yields exactly the
final weight of a single-pass forward update computed with full information,
i.e. one whose history query already returned the missing spike (as the last
entry of the window) and whose trace sample reflects it. -/
theorem correction_matches_full_information (cp : CommonProps) (tgt tgtF : Target)
    (delay : ℝ) (rt : ℕ × ℕ × ℕ) (s : SynState) (t_spike m : ℝ) (e : AdjustEntry)
    (hinv : cp.tau_plus_inv_ = cp.tau_plus_⁻¹)
    (he : (send cp tgt delay rt s t_spike).entry? = some e)
    (hhist : get_history tgtF
        (s.t_lastspike_ - (delay - cp.axonal_delay_) + cp.axonal_delay_)
        (t_spike - (delay - cp.axonal_delay_) + cp.axonal_delay_) =
      get_history tgt
        (s.t_lastspike_ - (delay - cp.axonal_delay_) + cp.axonal_delay_)
        (t_spike - (delay - cp.axonal_delay_) + cp.axonal_delay_) ++ [m]) :
    (adjust_weight cp tgtF delay (send cp tgt delay rt s t_spike).state e m).1.weight_ =
      (send cp tgtF delay rt s t_spike).state.weight_ := by
  simp only [send, sendCore] at he
  by_cases h : cp.axonal_delay_ > delay - cp.axonal_delay_
  · rw [if_pos h] at he
    have hE := Option.some.inj he
    subst hE
    rw [adjust_weight_val, send_weight_eq, send_Kplus_eq, hhist, facLoop_append]
    dsimp only
    rw [hinv]
    simp only [← div_eq_mul_inv]
    congr 1
    · congr 1
      rw [show s.t_lastspike_ -
            (t_spike + cp.axonal_delay_ - (delay - cp.axonal_delay_) - cp.axonal_delay_ +
              (delay - cp.axonal_delay_)) = s.t_lastspike_ - t_spike by ring]
      rw [add_sub_cancel_right, mul_div_cancel_right₀ _ (Real.exp_ne_zero _)]
    · congr 1
      ring
  · rw [if_neg h] at he
    exact Option.noConfusion he

theorem send_weight_empty_hist (cp : CommonProps) (tgt : Target) (delay : ℝ)
    (rt : ℕ × ℕ × ℕ) (s : SynState) (t_spike : ℝ) (hhist : tgt.history = []) :
    (send cp tgt delay rt s t_spike).state.weight_ =
      depress_ cp s.weight_
        (tgt.Kval (t_spike + cp.axonal_delay_ - (delay - cp.axonal_delay_))) := by
  rw [send_weight_eq]
  unfold get_history
  rw [hhist]
  rfl

theorem depress_le_self (cp : CommonProps) (w k : ℝ) (hw : 0 ≤ w) (hl : 0 ≤ cp.lambda_)
    (hal : 0 ≤ cp.alpha_) (hk : 0 ≤ k) : depress_ cp w k ≤ w := by
  rw [depress_eq_max]
  refine max_le hw ?_
  have hterm : 0 ≤ cp.lambda_ * cp.alpha_ * w * k :=
    mul_nonneg (mul_nonneg (mul_nonneg hl hal) hw) hk
  linarith

theorem depress_lt_self (cp : CommonProps) (w k : ℝ) (hw : 0 < w)
    (hpos : 0 < cp.lambda_ * cp.alpha_ * k) : depress_ cp w k < w := by
  rw [depress_eq_max]
  refine max_lt hw ?_
  have hterm : 0 < cp.lambda_ * cp.alpha_ * w * k := by
    rw [show cp.lambda_ * cp.alpha_ * w * k = cp.lambda_ * cp.alpha_ * k * w by ring]
    exact mul_pos hpos hw
  linarith

theorem runTrain_weight_le (cp : CommonProps) (tgt : Target) (delay : ℝ)
    (rt : ℕ × ℕ × ℕ) (hhist : tgt.history = []) (hl : 0 ≤ cp.lambda_)
    (hal : 0 ≤ cp.alpha_) (hK : ∀ x, 0 ≤ tgt.Kval x) :
    ∀ (ts : List ℝ) (s : SynState), 0 ≤ s.weight_ →
      (runTrain cp tgt delay rt s ts).1.weight_ ≤ s.weight_ := by
  intro ts
  induction ts with
  | nil => intro s _; exact le_of_eq rfl
  | cons t ts ih =>
      intro s h
      have h0 : 0 ≤ (send cp tgt delay rt s t).state.weight_ := by
        rw [send_weight_eq, depress_eq_max]
        exact le_max_left 0 _
      have hle : (send cp tgt delay rt s t).state.weight_ ≤ s.weight_ := by
        rw [send_weight_empty_hist cp tgt delay rt s t hhist]
        exact depress_le_self cp _ _ h hl hal (hK _)
      calc (runTrain cp tgt delay rt s (t :: ts)).1.weight_
          = (runTrain cp tgt delay rt (send cp tgt delay rt s t).state ts).1.weight_ := rfl
        _ ≤ (send cp tgt delay rt s t).state.weight_ := ih _ h0
        _ ≤ s.weight_ := hle

/-- C9 (counterexample): with no postsynaptic spikes the postsynaptic trace
`K_minus` is zero, so a forward update leaves the weight unchanged: after one
presynaptic spike the weight is still `1`, hence the weight sequence is not
strictly decreasing. -/
theorem pure_depression_not_strictly_decreasing :
    (runTrain ⟨1, 1, 1 / 100, 1, 1, 0⟩ ⟨[], fun _ => 0⟩ 1 (0, 0, 0) ⟨1, 0, 0⟩ [1]).1.weight_ = 1 ∧
    ¬ (runTrain ⟨1, 1, 1 / 100, 1, 1, 0⟩ ⟨[], fun _ => 0⟩ 1 (0, 0, 0) ⟨1, 0, 0⟩ [1]).1.weight_ < 1 := by
  have h : (runTrain ⟨1, 1, 1 / 100, 1, 1, 0⟩ ⟨[], fun _ => 0⟩ 1 (0, 0, 0)
      ⟨1, 0, 0⟩ [1]).1.weight_ = 1 := by
    norm_num [runTrain, send, sendCore, get_history, histBetween, facLoop, depress_]
  exact ⟨h, by rw [h]; exact lt_irrefl 1⟩

/-- C9 (amended): with an empty postsynaptic history the forward update
reduces to pure depression, so under nonnegative `lambda`, `alpha` and trace
values the weight is nonincreasing (over a single update and over any spike
train) and stays nonnegative; it decreases strictly exactly when the current
weight and `lambda * alpha * K_minus` are positive — when `K_minus` is zero
(as it is when no postsynaptic spike ever occurred) the weight is unchanged,
not strictly decreased. -/
theorem pure_depression_monotone (cp : CommonProps) (tgt : Target) (delay : ℝ)
    (rt : ℕ × ℕ × ℕ) (s : SynState) (hhist : tgt.history = [])
    (hl : 0 ≤ cp.lambda_) (hal : 0 ≤ cp.alpha_) (hK : ∀ x, 0 ≤ tgt.Kval x)
    (hw : 0 ≤ s.weight_) :
    (∀ t_spike, (send cp tgt delay rt s t_spike).state.weight_ ≤ s.weight_ ∧
      0 ≤ (send cp tgt delay rt s t_spike).state.weight_) ∧
    (∀ t_spike, 0 < s.weight_ →
      0 < cp.lambda_ * cp.alpha_ *
        tgt.Kval (t_spike + cp.axonal_delay_ - (delay - cp.axonal_delay_)) →
      (send cp tgt delay rt s t_spike).state.weight_ < s.weight_) ∧
    ∀ ts, (runTrain cp tgt delay rt s ts).1.weight_ ≤ s.weight_ := by
  refine ⟨?_, ?_, ?_⟩
  · intro t_spike
    constructor
    · rw [send_weight_empty_hist cp tgt delay rt s t_spike hhist]
      exact depress_le_self cp _ _ hw hl hal (hK _)
    · rw [send_weight_eq, depress_eq_max]
      exact le_max_left 0 _
  · intro t_spike hw0 hpos
    rw [send_weight_empty_hist cp tgt delay rt s t_spike hhist]
    exact depress_lt_self cp _ _ hw0 hpos
  · intro ts
    exact runTrain_weight_le cp tgt delay rt hhist hl hal hK ts s hw

theorem correction_matches_full_information_witness :
    (adjust_weight ⟨1, 1, 0, 0, 0, 1⟩ ⟨[2], fun _ => 0⟩ 1
        (send ⟨1, 1, 0, 0, 0, 1⟩ ⟨[], fun _ => 0⟩ 1 (0, 0, 0) ⟨1, 0, 0⟩ 1).state
        ⟨0, 1, 2, 0, 0, 0⟩ 2).1.weight_ =
      (send ⟨1, 1, 0, 0, 0, 1⟩ ⟨[2], fun _ => 0⟩ 1 (0, 0, 0) ⟨1, 0, 0⟩ 1).state.weight_ :=
  correction_matches_full_information ⟨1, 1, 0, 0, 0, 1⟩ ⟨[], fun _ => 0⟩
    ⟨[2], fun _ => 0⟩ 1 (0, 0, 0) ⟨1, 0, 0⟩ 1 2 ⟨0, 1, 2, 0, 0, 0⟩
    (by norm_num)
    (by norm_num [send, sendCore, get_history, histBetween, facLoop, AdjustEntry.mk.injEq])
    (by norm_num [get_history, histBetween])

theorem forward_update_functional_spec_witness :
    ((1 : ℝ) = (1 : ℝ)⁻¹) ∧
    (send ⟨1, 1, 0, 0, 0, 0⟩ ⟨[], fun _ => 0⟩ 1 (0, 0, 0) ⟨1, 0, 0⟩ 2).state =
      forwardSpec ⟨1, 1, 0, 0, 0, 0⟩ ⟨[], fun _ => 0⟩ 1 ⟨1, 0, 0⟩ 2 :=
  ⟨by norm_num,
    (forward_update_functional_spec ⟨1, 1, 0, 0, 0, 0⟩ ⟨[], fun _ => 0⟩ 1 (0, 0, 0)
      ⟨1, 0, 0⟩ 2 (by norm_num)).1⟩

theorem weight_nonneg_invariant_witness :
    (0 : ℝ) ≤ 1 ∧
    0 ≤ (send ⟨1, 1, 0, 0, 0, 0⟩ ⟨[], fun _ => 0⟩ 1 (0, 0, 0) ⟨1, 0, 0⟩ 2).state.weight_ :=
  ⟨by norm_num,
    (weight_nonneg_invariant ⟨1, 1, 0, 0, 0, 0⟩ ⟨[], fun _ => 0⟩ 1 (0, 0, 0) ⟨1, 0, 0⟩ 2
      ⟨0, 1, 2, 0, 0, 0⟩ 3 (by norm_num) (by norm_num) (by norm_num) (by norm_num)
      (by norm_num)).1⟩

theorem asserts_unreachable_witness :
    sendA ⟨1, 1, 0, 0, 0, 0⟩ ⟨[], fun _ => 0⟩ 1 0 (0, 0, 0) ⟨1, 0, 0⟩ 2 =
      some (send ⟨1, 1, 0, 0, 0, 0⟩ ⟨[], fun _ => 0⟩ 1 (0, 0, 0) ⟨1, 0, 0⟩ 2) ∧
    adjustA ⟨1, 1, 0, 0, 0, 0⟩ ⟨[], fun _ => 0⟩ 1 0 ⟨1, 0, 0⟩ ⟨0, 1, 2, 0, 0, 0⟩ 3 =
      some (adjust_weight ⟨1, 1, 0, 0, 0, 0⟩ ⟨[], fun _ => 0⟩ 1 ⟨1, 0, 0⟩
        ⟨0, 1, 2, 0, 0, 0⟩ 3) :=
  asserts_unreachable ⟨1, 1, 0, 0, 0, 0⟩ ⟨[], fun _ => 0⟩ 1 0 (0, 0, 0) ⟨1, 0, 0⟩ 2
    ⟨0, 1, 2, 0, 0, 0⟩ 3
    (by intro x hx; simp [get_history, histBetween] at hx)
    (by norm_num)

theorem adjustment_entry_iff_witness :
    (runTrain ⟨1, 1, 0, 0, 0, 0⟩ ⟨[], fun _ => 0⟩ 1 (0, 0, 0) ⟨1, 0, 0⟩ [1, 2]).2 = [] :=
  (adjustment_entry_iff ⟨1, 1, 0, 0, 0, 0⟩ ⟨[], fun _ => 0⟩ 1 (0, 0, 0) ⟨1, 0, 0⟩ 0).2.2
    rfl (by norm_num) [1, 2] ⟨1, 0, 0⟩

theorem axonal_delay_config_rejected_witness :
    set_axonal_delay ⟨1, 1, 0, 0, 0, 0⟩ 3 1 =
      Except.error "axonal delay exceeds total connection delay" :=
  (axonal_delay_config_rejected ⟨1, 1, 0, 0, 0, 0⟩ 3 1).1 (by norm_num)

theorem pure_depression_monotone_witness :
    (runTrain ⟨1, 1, 0, 0, 0, 0⟩ ⟨[], fun _ => 0⟩ 1 (0, 0, 0) ⟨1, 0, 0⟩ [1]).1.weight_ ≤ 1 :=
  (pure_depression_monotone ⟨1, 1, 0, 0, 0, 0⟩ ⟨[], fun _ => 0⟩ 1 (0, 0, 0) ⟨1, 0, 0⟩
    rfl (by norm_num) (by norm_num) (fun x => le_refl 0) (by norm_num)).2.2 [1]

end STDPPL
